import Mathlib

/-!
Verification of the Connected-Subgraph-Problem repository's heuristic and
exact-formulation code (`src/formulation/heuristic.py`,
`src/formulation/edge_diff.py`).

An assignment matrix is modelled as a total function `ℕ → ℕ → ℕ` together
with explicit dimensions `h`, `w`; all source loops and numpy slice
operations are translated to `Finset.range` sums and list folds.  numpy
integer arithmetic that can go negative (`requirements - scores`,
`upper_bounds - scores`) is modelled in `ℤ`.
-/

/-- A 2-dimensional integer matrix, indexed `(row, col)`, as used for both
the grid of weights and the assignment matrix. -/
abbrev Mat : Type := ℕ → ℕ → ℕ

/-- `updateMat a r c v` is the matrix `a` with the single entry `(r, c)`
replaced by `v` (the in-place numpy write `a[r, c] = v`). -/
def updateMat (a : Mat) (r c v : ℕ) : Mat :=
  fun i j => if i = r ∧ j = c then v else a i j

/-- Simultaneous exchange of the entries at `(r1, c1)` and `(r2, c2)`:
the Python tuple assignment
`a[r1, c1], a[r2, c2] = a[r2, c2], a[r1, c1]`. -/
def swapCells (a : Mat) (r1 c1 r2 c2 : ℕ) : Mat :=
  fun i j =>
    if i = r1 ∧ j = c1 then a r2 c2
    else if i = r2 ∧ j = c2 then a r1 c1
    else a i j

/-- `calc_local_score` from `src/formulation/heuristic.py`: the number of
existing grid neighbours of `(r, c)` whose entry differs from the entry at
`(r, c)`.  The Python test `c - 1 >= 0` on a Python int is `1 ≤ c` here. -/
def calc_local_score (h w : ℕ) (a : Mat) (r c : ℕ) : ℕ :=
  (if c + 1 < w then (if a r c ≠ a r (c + 1) then 1 else 0) else 0) +
  (if 1 ≤ c then (if a r c ≠ a r (c - 1) then 1 else 0) else 0) +
  (if r + 1 < h then (if a r c ≠ a (r + 1) c then 1 else 0) else 0) +
  (if 1 ≤ r then (if a r c ≠ a (r - 1) c then 1 else 0) else 0)

/-- `_total_edge_diff` from `src/formulation/heuristic.py`:
`np.sum(a[:, :-1] != a[:, 1:]) + np.sum(a[:-1, :] != a[1:, :])`, i.e. the
number of horizontally adjacent differing pairs plus the number of
vertically adjacent differing pairs. -/
def total_edge_diff (h w : ℕ) (a : Mat) : ℕ :=
  (∑ r ∈ Finset.range h, ∑ c ∈ Finset.range (w - 1),
      (if a r c ≠ a r (c + 1) then 1 else 0)) +
  (∑ r ∈ Finset.range (h - 1), ∑ c ∈ Finset.range w,
      (if a r c ≠ a (r + 1) c then 1 else 0))

/-- `try_swap_assignment` from `src/formulation/heuristic.py`.  The pair of
local scores is computed, the two entries are exchanged in place, the pair
is recomputed; on `next_score >= curr_score` the exchange is undone and
`False` is reported, otherwise the exchange is kept and `True` reported.
The mutated array is returned as the second component. -/
def try_swap_assignment (h w : ℕ) (a : Mat) (r1 c1 r2 c2 : ℕ) : Bool × Mat :=
  let curr := calc_local_score h w a r1 c1 + calc_local_score h w a r2 c2
  let a2 := swapCells a r1 c1 r2 c2
  let next := calc_local_score h w a2 r1 c1 + calc_local_score h w a2 r2 c2
  if curr ≤ next then (false, swapCells a2 r1 c1 r2 c2) else (true, a2)

/-- `try_change_single_assigment` from `src/formulation/heuristic.py`
(source spelling kept).  The entry at `(r, c)` is overwritten with
`new_value`; if the local score strictly decreased the change is kept and
`True` reported, otherwise the old value is written back and `False`
reported. -/
def try_change_single_assigment (h w : ℕ) (a : Mat) (r c new_value : ℕ) :
    Bool × Mat :=
  let old_value := a r c
  let curr := calc_local_score h w a r c
  let a2 := updateMat a r c new_value
  let next := calc_local_score h w a2 r c
  if next < curr then (true, a2) else (false, updateMat a2 r c old_value)

/-! ### `initial_assignment` from `src/formulation/heuristic.py`

`np.argsort` (ascending) followed by `[::-1]` is modelled by a stable
ascending insertion sort of the flat indices by cell value followed by a
reversal; on the tie patterns exercised in this development (all-distinct
or all-equal values) this coincides with numpy's introsort order.
numpy's `np.iinfo(np.int64).max` sentinel for ineligible players is
modelled by `⊤ : WithTop ℤ`, which like the sentinel in the int64 code is
strictly larger than every representable remaining capacity. -/

/-- Stable ascending insertion of `x` into a list sorted by `key`. -/
def insertAsc (key : ℕ → ℕ) (x : ℕ) : List ℕ → List ℕ
  | [] => [x]
  | y :: ys => if key x ≤ key y then x :: y :: ys else y :: insertAsc key x ys

/-- Stable ascending insertion sort by `key`. -/
def sortAsc (key : ℕ → ℕ) : List ℕ → List ℕ
  | [] => []
  | x :: xs => insertAsc key x (sortAsc key xs)

/-- `np.argsort(grid.flatten())[::-1]`: flat cell indices in descending
order of cell value. -/
def sortedIndices (g : Mat) (n : ℕ) : List ℕ :=
  (sortAsc (fun f => g (f / n) (f % n)) (List.range (n * n))).reverse

/-- The loop state of `initial_assignment`: the assignment being built and
the numpy arrays `scores` and `satisfied`. -/
structure IAState where
  assign : Mat
  scores : ℕ → ℕ
  satisfied : ℕ → Bool

/-- `(requirements * 1.2).astype(int)`: the per-player upper bound
`floor(requirements[k] * 1.2)`, in exact arithmetic. -/
def iaUB (req : ℕ → ℕ) (k : ℕ) : ℕ := 6 * req k / 5

/-- `eligible = (~satisfied) & (remaining_need > 0) & (value <= remaining_capacity)`,
with the two numpy int subtractions carried out in `ℤ`. -/
def eligibleB (req : ℕ → ℕ) (st : IAState) (value k : ℕ) : Bool :=
  (!st.satisfied k) &&
  decide ((st.scores k : ℤ) < (req k : ℤ)) &&
  decide ((value : ℤ) ≤ (iaUB req k : ℤ) - (st.scores k : ℤ))

/-- `np.where(eligible, remaining_capacity, np.iinfo(np.int64).max)`; the
sentinel is `⊤`. -/
def capacity_for_choice (req : ℕ → ℕ) (st : IAState) (value k : ℕ) : WithTop ℤ :=
  if eligibleB req st value k then ((iaUB req k : ℤ) - (st.scores k : ℤ) : ℤ) else ⊤

/-- `np.argmin` over indices `0, ..., m-1`: the first index attaining the
minimum. -/
def argminW (f : ℕ → WithTop ℤ) (m : ℕ) : ℕ :=
  (List.range m).foldl (fun best k => if f k < f best then k else best) 0

/-- One iteration of the cell loop of `initial_assignment`.  The Python
`break` once `satisfied.all()` holds is modelled by freezing the state. -/
def iaStep (g : Mat) (req : ℕ → ℕ) (n m : ℕ) (st : IAState) (flat : ℕ) : IAState :=
  if (List.range m).all st.satisfied then st
  else
    let row := flat / n
    let col := flat % n
    let value := g row col
    if (List.range m).any (eligibleB req st value) then
      let chosen := argminW (capacity_for_choice req st value) m
      let newScore := st.scores chosen + value
      { assign := updateMat st.assign row col (chosen + 1)
        scores := fun k => if k = chosen then newScore else st.scores k
        satisfied := fun k => if k = chosen then
            (if req chosen ≤ newScore then true else st.satisfied chosen)
          else st.satisfied k }
    else st

/-- The initial all-zero loop state of `initial_assignment`. -/
def iaInit : IAState := ⟨fun _ _ => 0, fun _ => 0, fun _ => false⟩

/-- `initial_assignment` from `src/formulation/heuristic.py`: greedy seed
assignment built over the value-sorted cells. -/
def initial_assignment (g : Mat) (req : ℕ → ℕ) (n m : ℕ) : Mat :=
  ((sortedIndices g n).foldl (iaStep g req n m) iaInit).assign

/-- Player `k`'s accumulated weight: the sum of grid weights over the
cells holding player-id `k + 1`. -/
def playerWeight (g : Mat) (n : ℕ) (a : Mat) (k : ℕ) : ℕ :=
  ∑ r ∈ Finset.range n, ∑ c ∈ Finset.range n, (if a r c = k + 1 then g r c else 0)

/-! ### The local-search loop of `solve_assignment`
(`src/formulation/heuristic.py`) -/

/-- One iteration's worth of random draws in `solve_assignment`: the three
positions (from `pos1`, `pos2`, `pos3`) and the recolor value (from the
`assign_num` array). -/
structure Draw where
  p1 : ℕ × ℕ
  p2 : ℕ × ℕ
  p3 : ℕ × ℕ
  val : ℕ

/-- The range constraints that `np.random.randint` imposes on one
iteration's draws in `solve_assignment`: rows from `randint(0, h)`,
columns from `randint(1, w)`, and the recolor value from
`randint(0, (len(requirements) + 1) + 1)`. -/
def validDraw (h w m : ℕ) (d : Draw) : Prop :=
  d.p1.1 < h ∧ 1 ≤ d.p1.2 ∧ d.p1.2 < w ∧
  d.p2.1 < h ∧ 1 ≤ d.p2.2 ∧ d.p2.2 < w ∧
  d.p3.1 < h ∧ 1 ≤ d.p3.2 ∧ d.p3.2 < w ∧
  d.val < m + 2

/-- A draw proposes position `(r, c)` if any of its three positions is
`(r, c)`. -/
def proposes (d : Draw) (r c : ℕ) : Prop :=
  d.p1 = (r, c) ∨ d.p2 = (r, c) ∨ d.p3 = (r, c)

/-- One iteration of the local-search loop: `try_swap_assignment` on
`pos1[i], pos2[i]`, then `try_change_single_assigment` on `pos3[i]` with
value `assign_num[i]`. -/
def solveStep (h w : ℕ) (a : Mat) (d : Draw) : Mat :=
  (try_change_single_assigment h w
    (try_swap_assignment h w a d.p1.1 d.p1.2 d.p2.1 d.p2.2).2
    d.p3.1 d.p3.2 d.val).2

/-- The local-search loop of `solve_assignment` over a list of draws. -/
def solveLoop (h w : ℕ) (a : Mat) (ds : List Draw) : Mat :=
  ds.foldl (solveStep h w) a

/-- `solve_assignment` from `src/formulation/heuristic.py`:
`initial_assignment` followed by the local-search loop (the draws, made
up-front from `np.random.randint`, are passed explicitly). -/
def solve_assignment (g : Mat) (req : ℕ → ℕ) (n m : ℕ) (ds : List Draw) : Mat :=
  solveLoop n n (initial_assignment g req n m) ds

/-! ### The pair enumeration of `src/formulation/edge_diff.py` -/

/-- The `pairs` list of `edge_diff.solve_assignment`:
`for i in range(n-1): for j in range(n-1): pairs += [((i,j),(i+1,j)), ((i,j),(i,j+1))]`.
For each such pair and each player the model adds one continuous auxiliary
variable `z` with upper bound 1 and the two constraints
`z >= x1 - x2`, `z >= x2 - x1`, and the objective is the sum of all `z`. -/
def edPairs (n : ℕ) : List ((ℕ × ℕ) × (ℕ × ℕ)) :=
  (List.range (n - 1)).flatMap (fun i =>
    (List.range (n - 1)).flatMap (fun j =>
      [((i, j), (i + 1, j)), ((i, j), (i, j + 1))]))

/-- A decision variable of the edge-difference model: the boolean cell
variables `x_{i}_{j}_{k}` and the continuous auxiliary variables
`z_{p}_{k}` (`p` an index into the `pairs` list). -/
inductive MipVar where
  | x : ℕ → ℕ → ℕ → MipVar
  | z : ℕ → ℕ → MipVar

/-- One auxiliary-variable declaration
`z[p, k] = model.add_var(var_type=CONTINUOUS, name=f"z_{p}_{k}", ub=1)`
of `edge_diff.solve_assignment`: its pair index, its player, the two cells
of its pair, and its bounds (`lb = 0` is the `add_var` default). -/
structure ZDecl where
  pairIdx : ℕ
  player : ℕ
  cell1 : ℕ × ℕ
  cell2 : ℕ × ℕ
  lb : ℕ
  ub : ℕ

/-- One constraint `lhs >= pos - neg` as added by
`model.add_constr(z[p, k] >= x[i1][j1][k] - x[i2][j2][k])` and its mirror
image. -/
structure GeDiffConstr where
  lhs : MipVar
  pos : MipVar
  neg : MipVar

/-- The pair at index `p` of the `pairs` list (as bound by
`for p, ((i1, j1), (i2, j2)) in enumerate(pairs)`). -/
def pairAt (n p : ℕ) : (ℕ × ℕ) × (ℕ × ℕ) := (edPairs n).getD p ((0, 0), (0, 0))

/-- The auxiliary-variable declarations made by the `z`-loop of
`edge_diff.solve_assignment`: one continuous variable with `lb = 0`,
`ub = 1` per pair index and player. -/
def zDecls (n m : ℕ) : List ZDecl :=
  (List.range (edPairs n).length).flatMap (fun p =>
    (List.range m).map (fun k =>
      ⟨p, k, (pairAt n p).1, (pairAt n p).2, 0, 1⟩))

/-- The constraints added by the `z`-loop:
`z[p, k] >= x[i1][j1][k] - x[i2][j2][k]` and
`z[p, k] >= x[i2][j2][k] - x[i1][j1][k]` for every pair index and
player. -/
def zConstraints (n m : ℕ) : List GeDiffConstr :=
  (List.range (edPairs n).length).flatMap (fun p =>
    (List.range m).flatMap (fun k =>
      [⟨MipVar.z p k,
        MipVar.x (pairAt n p).1.1 (pairAt n p).1.2 k,
        MipVar.x (pairAt n p).2.1 (pairAt n p).2.2 k⟩,
       ⟨MipVar.z p k,
        MipVar.x (pairAt n p).2.1 (pairAt n p).2.2 k,
        MipVar.x (pairAt n p).1.1 (pairAt n p).1.2 k⟩]))

/-- The variables summed by the objective
`model.objective = xsum(z.values())`: all `z` variables in dict insertion
order. -/
def zObjectiveVars (n m : ℕ) : List MipVar :=
  (List.range (edPairs n).length).flatMap (fun p =>
    (List.range m).map (fun k => MipVar.z p k))

/-! ### Concrete inputs for the scenario claims -/

/-- The 1×1 grid of weight 5 (scenario C7). -/
def g7 : Mat := fun _ _ => 5

/-- The requirements `[1]` (scenario C7). -/
def req7 : ℕ → ℕ := fun _ => 1

/-- The 3×3 grid of all weight 1 (scenario C8). -/
def g8 : Mat := fun _ _ => 1

/-- The requirements `[3, 3, 3]` (scenario C8). -/
def req8 : ℕ → ℕ := fun _ => 3

/-- A concrete valid draw for a 2×2 grid with one player whose recolor
value is `m + 1 = 2`. -/
def drawTwo : Draw := ⟨(0, 1), (0, 1), (0, 1), 2⟩

/-! ### Basic update / swap algebra -/

lemma updateMat_self (a : Mat) (r c : ℕ) : updateMat a r c (a r c) = a := by
  funext i j
  unfold updateMat
  by_cases hij : i = r ∧ j = c
  · rcases hij with ⟨rfl, rfl⟩
    simp
  · simp [hij]

lemma updateMat_updateMat (a : Mat) (r c v u : ℕ) :
    updateMat (updateMat a r c v) r c u = updateMat a r c u := by
  funext i j
  unfold updateMat
  by_cases hij : i = r ∧ j = c <;> simp [hij]

lemma updateMat_revert (a : Mat) (r c v : ℕ) :
    updateMat (updateMat a r c v) r c (a r c) = a := by
  rw [updateMat_updateMat, updateMat_self]

lemma updateMat_apply_self (a : Mat) (r c v : ℕ) : updateMat a r c v r c = v := by
  simp [updateMat]

lemma updateMat_apply_ne (a : Mat) (r c v i j : ℕ) (hij : ¬(i = r ∧ j = c)) :
    updateMat a r c v i j = a i j := by
  simp [updateMat, hij]

lemma swapCells_self (a : Mat) (r c : ℕ) : swapCells a r c r c = a := by
  funext i j
  unfold swapCells
  by_cases hij : i = r ∧ j = c
  · rcases hij with ⟨rfl, rfl⟩
    simp
  · simp [hij]

lemma swapCells_apply_fst (a : Mat) (r1 c1 r2 c2 : ℕ) :
    swapCells a r1 c1 r2 c2 r1 c1 = a r2 c2 := by
  simp [swapCells]

lemma swapCells_apply_snd (a : Mat) (r1 c1 r2 c2 : ℕ) :
    swapCells a r1 c1 r2 c2 r2 c2 = a r1 c1 := by
  unfold swapCells
  by_cases hs : r2 = r1 ∧ c2 = c1
  · rcases hs with ⟨rfl, rfl⟩
    simp
  · simp [hs]

lemma swapCells_apply_other (a : Mat) (r1 c1 r2 c2 i j : ℕ)
    (h1 : ¬(i = r1 ∧ j = c1)) (h2 : ¬(i = r2 ∧ j = c2)) :
    swapCells a r1 c1 r2 c2 i j = a i j := by
  simp [swapCells, h1, h2]

lemma swapCells_swapCells (a : Mat) (r1 c1 r2 c2 : ℕ) :
    swapCells (swapCells a r1 c1 r2 c2) r1 c1 r2 c2 = a := by
  funext i j
  by_cases h1 : i = r1 ∧ j = c1
  · rcases h1 with ⟨rfl, rfl⟩
    rw [swapCells_apply_fst, swapCells_apply_snd]
  · by_cases h2 : i = r2 ∧ j = c2
    · rcases h2 with ⟨rfl, rfl⟩
      rw [swapCells_apply_snd, swapCells_apply_fst]
    · rw [swapCells_apply_other _ _ _ _ _ _ _ h1 h2,
        swapCells_apply_other _ _ _ _ _ _ _ h1 h2]

lemma swapCells_eq_double_update (a : Mat) (r1 c1 r2 c2 : ℕ) :
    swapCells a r1 c1 r2 c2 =
      updateMat (updateMat a r1 c1 (a r2 c2)) r2 c2 (a r1 c1) := by
  funext i j
  by_cases h2 : i = r2 ∧ j = c2
  · rcases h2 with ⟨rfl, rfl⟩
    rw [swapCells_apply_snd, updateMat_apply_self]
  · rw [updateMat_apply_ne _ _ _ _ _ _ h2]
    by_cases h1 : i = r1 ∧ j = c1
    · rcases h1 with ⟨rfl, rfl⟩
      rw [swapCells_apply_fst, updateMat_apply_self]
    · rw [swapCells_apply_other _ _ _ _ _ _ _ h1 h2,
        updateMat_apply_ne _ _ _ _ _ _ h1]

/-- C10: swapping a position with itself is a no-op that is always
rejected: `try_swap_assignment` returns `False` and the matrix is
unchanged. -/
theorem try_swap_same_pos_rejected (h w : ℕ) (a : Mat) (r c : ℕ)
    (hr : r < h) (hc : c < w) :
    try_swap_assignment h w a r c r c = (false, a) := by
  unfold try_swap_assignment
  rw [swapCells_self]
  simp [swapCells_self]

/-- Witness for `try_swap_same_pos_rejected` at a concrete input. -/
theorem try_swap_same_pos_rejected_witness :
    (0 < 2 ∧ 1 < 2) ∧
      try_swap_assignment 2 2 (fun i j => i + j) 0 1 0 1 =
        (false, fun i j => i + j) :=
  ⟨⟨by decide, by decide⟩,
    try_swap_same_pos_rejected 2 2 (fun i j => i + j) 0 1 (by decide) (by decide)⟩

/-! ### C2: the local-score / total-edge-diff identity -/

lemma indicator_ne_comm (x y : ℕ) :
    (if x ≠ y then 1 else 0) = (if y ≠ x then 1 else 0) := by
  by_cases hxy : x = y <;> simp [hxy, Ne, eq_comm]

/-- Summing a term guarded by `c + 1 < w` over `range w` is summing the
unguarded term over `range (w - 1)`. -/
lemma sum_guard_lt (w : ℕ) (f : ℕ → ℕ) :
    (∑ c ∈ Finset.range w, (if c + 1 < w then f c else 0)) =
      ∑ c ∈ Finset.range (w - 1), f c := by
  cases w with
  | zero => simp
  | succ v =>
    rw [Nat.succ_sub_one, Finset.sum_range_succ]
    have hlast : (if v + 1 < v + 1 then f v else 0) = 0 := by simp
    rw [hlast, add_zero]
    refine Finset.sum_congr rfl (fun c hc => ?_)
    rw [Finset.mem_range] at hc
    rw [if_pos (Nat.succ_lt_succ hc)]

/-- Summing a term guarded by `1 ≤ c` over `range w` is summing the shifted
term over `range (w - 1)`. -/
lemma sum_guard_ge (w : ℕ) (f : ℕ → ℕ) :
    (∑ c ∈ Finset.range w, (if 1 ≤ c then f c else 0)) =
      ∑ c ∈ Finset.range (w - 1), f (c + 1) := by
  cases w with
  | zero => simp
  | succ v =>
    rw [Finset.sum_range_succ']
    simp

lemma sum_ite_const_cond {P : Prop} [Decidable P] (s : Finset ℕ) (f : ℕ → ℕ) :
    (∑ c ∈ s, (if P then f c else 0)) = if P then (∑ c ∈ s, f c) else 0 := by
  split <;> simp

/-- C2: `_total_edge_diff(a)` equals the sum of `calc_local_score(a, r, c)`
over all cells `(r, c)` divided by 2. -/
theorem total_edge_diff_eq_half_sum_local (h w : ℕ) (a : Mat) :
    total_edge_diff h w a =
      (∑ r ∈ Finset.range h, ∑ c ∈ Finset.range w,
        calc_local_score h w a r c) / 2 := by
  have key : (∑ r ∈ Finset.range h, ∑ c ∈ Finset.range w,
      calc_local_score h w a r c) = 2 * total_edge_diff h w a := by
    unfold calc_local_score
    have split4 : (∑ r ∈ Finset.range h, ∑ c ∈ Finset.range w,
        ((if c + 1 < w then (if a r c ≠ a r (c + 1) then 1 else 0) else 0) +
         (if 1 ≤ c then (if a r c ≠ a r (c - 1) then 1 else 0) else 0) +
         (if r + 1 < h then (if a r c ≠ a (r + 1) c then 1 else 0) else 0) +
         (if 1 ≤ r then (if a r c ≠ a (r - 1) c then 1 else 0) else 0))) =
        (∑ r ∈ Finset.range h, ∑ c ∈ Finset.range w,
          (if c + 1 < w then (if a r c ≠ a r (c + 1) then 1 else 0) else 0)) +
        (∑ r ∈ Finset.range h, ∑ c ∈ Finset.range w,
          (if 1 ≤ c then (if a r c ≠ a r (c - 1) then 1 else 0) else 0)) +
        (∑ r ∈ Finset.range h, ∑ c ∈ Finset.range w,
          (if r + 1 < h then (if a r c ≠ a (r + 1) c then 1 else 0) else 0)) +
        (∑ r ∈ Finset.range h, ∑ c ∈ Finset.range w,
          (if 1 ≤ r then (if a r c ≠ a (r - 1) c then 1 else 0) else 0)) := by
      rw [← Finset.sum_add_distrib, ← Finset.sum_add_distrib,
        ← Finset.sum_add_distrib]
      refine Finset.sum_congr rfl (fun r _ => ?_)
      rw [← Finset.sum_add_distrib, ← Finset.sum_add_distrib,
        ← Finset.sum_add_distrib]
    rw [split4]
    have hT1 : (∑ r ∈ Finset.range h, ∑ c ∈ Finset.range w,
        (if c + 1 < w then (if a r c ≠ a r (c + 1) then 1 else 0) else 0)) =
        ∑ r ∈ Finset.range h, ∑ c ∈ Finset.range (w - 1),
          (if a r c ≠ a r (c + 1) then 1 else 0) :=
      Finset.sum_congr rfl (fun r _ => sum_guard_lt w _)
    have hT2 : (∑ r ∈ Finset.range h, ∑ c ∈ Finset.range w,
        (if 1 ≤ c then (if a r c ≠ a r (c - 1) then 1 else 0) else 0)) =
        ∑ r ∈ Finset.range h, ∑ c ∈ Finset.range (w - 1),
          (if a r c ≠ a r (c + 1) then 1 else 0) := by
      refine Finset.sum_congr rfl (fun r _ => ?_)
      rw [sum_guard_ge w _]
      refine Finset.sum_congr rfl (fun c _ => ?_)
      rw [Nat.add_sub_cancel, indicator_ne_comm]
    have hT3 : (∑ r ∈ Finset.range h, ∑ c ∈ Finset.range w,
        (if r + 1 < h then (if a r c ≠ a (r + 1) c then 1 else 0) else 0)) =
        ∑ r ∈ Finset.range (h - 1), ∑ c ∈ Finset.range w,
          (if a r c ≠ a (r + 1) c then 1 else 0) := by
      have := sum_guard_lt h (fun r => ∑ c ∈ Finset.range w,
        (if a r c ≠ a (r + 1) c then 1 else 0))
      rw [← this]
      refine Finset.sum_congr rfl (fun r _ => ?_)
      rw [sum_ite_const_cond]
    have hT4 : (∑ r ∈ Finset.range h, ∑ c ∈ Finset.range w,
        (if 1 ≤ r then (if a r c ≠ a (r - 1) c then 1 else 0) else 0)) =
        ∑ r ∈ Finset.range (h - 1), ∑ c ∈ Finset.range w,
          (if a r c ≠ a (r + 1) c then 1 else 0) := by
      have hg := sum_guard_ge h (fun r => ∑ c ∈ Finset.range w,
        (if a r c ≠ a (r - 1) c then 1 else 0))
      have hpull : (∑ r ∈ Finset.range h, ∑ c ∈ Finset.range w,
          (if 1 ≤ r then (if a r c ≠ a (r - 1) c then 1 else 0) else 0)) =
          ∑ r ∈ Finset.range h, (if 1 ≤ r then ∑ c ∈ Finset.range w,
            (if a r c ≠ a (r - 1) c then 1 else 0) else 0) :=
        Finset.sum_congr rfl (fun r _ => sum_ite_const_cond _ _)
      rw [hpull, hg]
      refine Finset.sum_congr rfl (fun r _ => ?_)
      refine Finset.sum_congr rfl (fun c _ => ?_)
      rw [Nat.add_sub_cancel, indicator_ne_comm]
    rw [hT1, hT2, hT3, hT4]
    unfold total_edge_diff
    ring
  omega

/-! ### How one entry change moves the total edge diff

`recolor_total_exchange` below is the key accounting identity: rewriting
one entry moves `total_edge_diff` by exactly the change of the local score
at that entry. -/

lemma sum_exchange (s t : Finset ℕ) (f g : ℕ → ℕ) (hts : t ⊆ s)
    (hfg : ∀ c ∈ s, c ∉ t → f c = g c) :
    (∑ c ∈ s, f c) + ∑ c ∈ t, g c = (∑ c ∈ s, g c) + ∑ c ∈ t, f c := by
  have hf : (∑ c ∈ s \ t, f c) + ∑ c ∈ t, f c = ∑ c ∈ s, f c :=
    Finset.sum_sdiff hts
  have hg : (∑ c ∈ s \ t, g c) + ∑ c ∈ t, g c = ∑ c ∈ s, g c :=
    Finset.sum_sdiff hts
  have heq : (∑ c ∈ s \ t, f c) = ∑ c ∈ s \ t, g c :=
    Finset.sum_congr rfl fun c hc => by
      rw [Finset.mem_sdiff] at hc
      exact hfg c hc.1 hc.2
  omega

/-- One-dimensional version: a line `f` is changed only at index `c₀`; the
sum of adjacent-difference indicators along the line moves exactly by the
change of the (up to two) indicators incident to `c₀`. -/
lemma line_update_exchange (w c₀ : ℕ) (f f' : ℕ → ℕ) (hc : c₀ < w)
    (hsame : ∀ c, c ≠ c₀ → f' c = f c) :
    (∑ c ∈ Finset.range (w - 1), (if f' c ≠ f' (c + 1) then 1 else 0)) +
      ((if c₀ + 1 < w then (if f c₀ ≠ f (c₀ + 1) then 1 else 0) else 0) +
       (if 1 ≤ c₀ then (if f c₀ ≠ f (c₀ - 1) then 1 else 0) else 0)) =
    (∑ c ∈ Finset.range (w - 1), (if f c ≠ f (c + 1) then 1 else 0)) +
      ((if c₀ + 1 < w then (if f' c₀ ≠ f' (c₀ + 1) then 1 else 0) else 0) +
       (if 1 ≤ c₀ then (if f' c₀ ≠ f' (c₀ - 1) then 1 else 0) else 0)) := by
  by_cases h1 : c₀ + 1 < w
  · by_cases h2 : 1 ≤ c₀
    · have hsub : insert (c₀ - 1) ({c₀} : Finset ℕ) ⊆ Finset.range (w - 1) := by
        intro x hx
        simp only [Finset.mem_insert, Finset.mem_singleton] at hx
        rw [Finset.mem_range]
        omega
      have hnm : (c₀ - 1) ∉ ({c₀} : Finset ℕ) := by
        simp only [Finset.mem_singleton]
        omega
      have hfg : ∀ c ∈ Finset.range (w - 1), c ∉ insert (c₀ - 1) ({c₀} : Finset ℕ) →
          (if f' c ≠ f' (c + 1) then 1 else 0) =
            (if f c ≠ f (c + 1) then 1 else 0) := by
        intro c _ hct
        simp only [Finset.mem_insert, Finset.mem_singleton] at hct
        push_neg at hct
        rw [hsame c (by omega), hsame (c + 1) (by omega)]
      have hex := sum_exchange (Finset.range (w - 1)) (insert (c₀ - 1) ({c₀} : Finset ℕ))
        _ _ hsub hfg
      rw [Finset.sum_insert hnm, Finset.sum_insert hnm, Finset.sum_singleton,
        Finset.sum_singleton] at hex
      have e1 : c₀ - 1 + 1 = c₀ := by omega
      rw [e1] at hex
      rw [if_pos h1, if_pos h1, if_pos h2, if_pos h2,
        indicator_ne_comm (f c₀) (f (c₀ - 1)),
        indicator_ne_comm (f' c₀) (f' (c₀ - 1))]
      omega
    · have hsub : ({c₀} : Finset ℕ) ⊆ Finset.range (w - 1) := by
        intro x hx
        simp only [Finset.mem_singleton] at hx
        rw [Finset.mem_range]
        omega
      have hfg : ∀ c ∈ Finset.range (w - 1), c ∉ ({c₀} : Finset ℕ) →
          (if f' c ≠ f' (c + 1) then 1 else 0) =
            (if f c ≠ f (c + 1) then 1 else 0) := by
        intro c _ hct
        simp only [Finset.mem_singleton] at hct
        rw [hsame c hct, hsame (c + 1) (by omega)]
      have hex := sum_exchange (Finset.range (w - 1)) ({c₀} : Finset ℕ) _ _ hsub hfg
      rw [Finset.sum_singleton, Finset.sum_singleton] at hex
      rw [if_pos h1, if_pos h1, if_neg h2, if_neg h2]
      omega
  · by_cases h2 : 1 ≤ c₀
    · have hsub : ({c₀ - 1} : Finset ℕ) ⊆ Finset.range (w - 1) := by
        intro x hx
        simp only [Finset.mem_singleton] at hx
        rw [Finset.mem_range]
        omega
      have hfg : ∀ c ∈ Finset.range (w - 1), c ∉ ({c₀ - 1} : Finset ℕ) →
          (if f' c ≠ f' (c + 1) then 1 else 0) =
            (if f c ≠ f (c + 1) then 1 else 0) := by
        intro c hcr hct
        simp only [Finset.mem_singleton] at hct
        rw [Finset.mem_range] at hcr
        rw [hsame c (by omega), hsame (c + 1) (by omega)]
      have hex := sum_exchange (Finset.range (w - 1)) ({c₀ - 1} : Finset ℕ) _ _ hsub hfg
      rw [Finset.sum_singleton, Finset.sum_singleton] at hex
      have e1 : c₀ - 1 + 1 = c₀ := by omega
      rw [e1] at hex
      rw [if_neg h1, if_neg h1, if_pos h2, if_pos h2,
        indicator_ne_comm (f c₀) (f (c₀ - 1)),
        indicator_ne_comm (f' c₀) (f' (c₀ - 1))]
      omega
    · have hw : w - 1 = 0 := by omega
      rw [hw]
      simp [h1, h2]

/-- Horizontal half of the accounting identity for a one-entry update. -/
lemma h_part_exchange (h w : ℕ) (a : Mat) (r₀ c₀ v : ℕ)
    (hr : r₀ < h) (hc : c₀ < w) :
    (∑ r ∈ Finset.range h, ∑ c ∈ Finset.range (w - 1),
        (if updateMat a r₀ c₀ v r c ≠ updateMat a r₀ c₀ v r (c + 1) then 1 else 0)) +
      ((if c₀ + 1 < w then (if a r₀ c₀ ≠ a r₀ (c₀ + 1) then 1 else 0) else 0) +
       (if 1 ≤ c₀ then (if a r₀ c₀ ≠ a r₀ (c₀ - 1) then 1 else 0) else 0)) =
    (∑ r ∈ Finset.range h, ∑ c ∈ Finset.range (w - 1),
        (if a r c ≠ a r (c + 1) then 1 else 0)) +
      ((if c₀ + 1 < w then
          (if updateMat a r₀ c₀ v r₀ c₀ ≠ updateMat a r₀ c₀ v r₀ (c₀ + 1) then 1 else 0)
        else 0) +
       (if 1 ≤ c₀ then
          (if updateMat a r₀ c₀ v r₀ c₀ ≠ updateMat a r₀ c₀ v r₀ (c₀ - 1) then 1 else 0)
        else 0)) := by
  have hsub : ({r₀} : Finset ℕ) ⊆ Finset.range h := by
    intro x hx
    simp only [Finset.mem_singleton] at hx
    rw [Finset.mem_range]
    omega
  have hfg : ∀ r ∈ Finset.range h, r ∉ ({r₀} : Finset ℕ) →
      (∑ c ∈ Finset.range (w - 1),
        (if updateMat a r₀ c₀ v r c ≠ updateMat a r₀ c₀ v r (c + 1) then 1 else 0)) =
      (∑ c ∈ Finset.range (w - 1), (if a r c ≠ a r (c + 1) then 1 else 0)) := by
    intro r _ hrt
    simp only [Finset.mem_singleton] at hrt
    refine Finset.sum_congr rfl fun c _ => ?_
    rw [updateMat_apply_ne a r₀ c₀ v r c (by tauto),
      updateMat_apply_ne a r₀ c₀ v r (c + 1) (by tauto)]
  have houter : (∑ r ∈ Finset.range h, ∑ c ∈ Finset.range (w - 1),
        (if updateMat a r₀ c₀ v r c ≠ updateMat a r₀ c₀ v r (c + 1) then 1 else 0)) +
      (∑ c ∈ Finset.range (w - 1), (if a r₀ c ≠ a r₀ (c + 1) then 1 else 0)) =
      (∑ r ∈ Finset.range h, ∑ c ∈ Finset.range (w - 1),
        (if a r c ≠ a r (c + 1) then 1 else 0)) +
      (∑ c ∈ Finset.range (w - 1),
        (if updateMat a r₀ c₀ v r₀ c ≠ updateMat a r₀ c₀ v r₀ (c + 1) then 1 else 0)) := by
    have hx := sum_exchange (Finset.range h) ({r₀} : Finset ℕ) _ _ hsub hfg
    rw [Finset.sum_singleton, Finset.sum_singleton] at hx
    exact hx
  have hline : (∑ c ∈ Finset.range (w - 1),
        (if updateMat a r₀ c₀ v r₀ c ≠ updateMat a r₀ c₀ v r₀ (c + 1) then 1 else 0)) +
      ((if c₀ + 1 < w then (if a r₀ c₀ ≠ a r₀ (c₀ + 1) then 1 else 0) else 0) +
       (if 1 ≤ c₀ then (if a r₀ c₀ ≠ a r₀ (c₀ - 1) then 1 else 0) else 0)) =
      (∑ c ∈ Finset.range (w - 1), (if a r₀ c ≠ a r₀ (c + 1) then 1 else 0)) +
      ((if c₀ + 1 < w then
          (if updateMat a r₀ c₀ v r₀ c₀ ≠ updateMat a r₀ c₀ v r₀ (c₀ + 1) then 1 else 0)
        else 0) +
       (if 1 ≤ c₀ then
          (if updateMat a r₀ c₀ v r₀ c₀ ≠ updateMat a r₀ c₀ v r₀ (c₀ - 1) then 1 else 0)
        else 0)) :=
    line_update_exchange w c₀ (fun c => a r₀ c)
      (fun c => updateMat a r₀ c₀ v r₀ c) hc
      (fun c hcne => updateMat_apply_ne a r₀ c₀ v r₀ c (by tauto))
  omega

/-- Vertical half of the accounting identity for a one-entry update. -/
lemma v_part_exchange (h w : ℕ) (a : Mat) (r₀ c₀ v : ℕ)
    (hr : r₀ < h) (hc : c₀ < w) :
    (∑ r ∈ Finset.range (h - 1), ∑ c ∈ Finset.range w,
        (if updateMat a r₀ c₀ v r c ≠ updateMat a r₀ c₀ v (r + 1) c then 1 else 0)) +
      ((if r₀ + 1 < h then (if a r₀ c₀ ≠ a (r₀ + 1) c₀ then 1 else 0) else 0) +
       (if 1 ≤ r₀ then (if a r₀ c₀ ≠ a (r₀ - 1) c₀ then 1 else 0) else 0)) =
    (∑ r ∈ Finset.range (h - 1), ∑ c ∈ Finset.range w,
        (if a r c ≠ a (r + 1) c then 1 else 0)) +
      ((if r₀ + 1 < h then
          (if updateMat a r₀ c₀ v r₀ c₀ ≠ updateMat a r₀ c₀ v (r₀ + 1) c₀ then 1 else 0)
        else 0) +
       (if 1 ≤ r₀ then
          (if updateMat a r₀ c₀ v r₀ c₀ ≠ updateMat a r₀ c₀ v (r₀ - 1) c₀ then 1 else 0)
        else 0)) := by
  have hcm1 : (∑ r ∈ Finset.range (h - 1), ∑ c ∈ Finset.range w,
      (if updateMat a r₀ c₀ v r c ≠ updateMat a r₀ c₀ v (r + 1) c then 1 else 0)) =
      ∑ c ∈ Finset.range w, ∑ r ∈ Finset.range (h - 1),
        (if updateMat a r₀ c₀ v r c ≠ updateMat a r₀ c₀ v (r + 1) c then 1 else 0) :=
    Finset.sum_comm
  have hcm2 : (∑ r ∈ Finset.range (h - 1), ∑ c ∈ Finset.range w,
      (if a r c ≠ a (r + 1) c then 1 else 0)) =
      ∑ c ∈ Finset.range w, ∑ r ∈ Finset.range (h - 1),
        (if a r c ≠ a (r + 1) c then 1 else 0) :=
    Finset.sum_comm
  rw [hcm1, hcm2]
  have hsub : ({c₀} : Finset ℕ) ⊆ Finset.range w := by
    intro x hx
    simp only [Finset.mem_singleton] at hx
    rw [Finset.mem_range]
    omega
  have hfg : ∀ c ∈ Finset.range w, c ∉ ({c₀} : Finset ℕ) →
      (∑ r ∈ Finset.range (h - 1),
        (if updateMat a r₀ c₀ v r c ≠ updateMat a r₀ c₀ v (r + 1) c then 1 else 0)) =
      (∑ r ∈ Finset.range (h - 1), (if a r c ≠ a (r + 1) c then 1 else 0)) := by
    intro c _ hct
    simp only [Finset.mem_singleton] at hct
    refine Finset.sum_congr rfl fun r _ => ?_
    rw [updateMat_apply_ne a r₀ c₀ v r c (by tauto),
      updateMat_apply_ne a r₀ c₀ v (r + 1) c (by tauto)]
  have houter : (∑ c ∈ Finset.range w, ∑ r ∈ Finset.range (h - 1),
        (if updateMat a r₀ c₀ v r c ≠ updateMat a r₀ c₀ v (r + 1) c then 1 else 0)) +
      (∑ r ∈ Finset.range (h - 1), (if a r c₀ ≠ a (r + 1) c₀ then 1 else 0)) =
      (∑ c ∈ Finset.range w, ∑ r ∈ Finset.range (h - 1),
        (if a r c ≠ a (r + 1) c then 1 else 0)) +
      (∑ r ∈ Finset.range (h - 1),
        (if updateMat a r₀ c₀ v r c₀ ≠ updateMat a r₀ c₀ v (r + 1) c₀ then 1 else 0)) := by
    have hx := sum_exchange (Finset.range w) ({c₀} : Finset ℕ) _ _ hsub hfg
    rw [Finset.sum_singleton, Finset.sum_singleton] at hx
    exact hx
  have hline : (∑ r ∈ Finset.range (h - 1),
        (if updateMat a r₀ c₀ v r c₀ ≠ updateMat a r₀ c₀ v (r + 1) c₀ then 1 else 0)) +
      ((if r₀ + 1 < h then (if a r₀ c₀ ≠ a (r₀ + 1) c₀ then 1 else 0) else 0) +
       (if 1 ≤ r₀ then (if a r₀ c₀ ≠ a (r₀ - 1) c₀ then 1 else 0) else 0)) =
      (∑ r ∈ Finset.range (h - 1), (if a r c₀ ≠ a (r + 1) c₀ then 1 else 0)) +
      ((if r₀ + 1 < h then
          (if updateMat a r₀ c₀ v r₀ c₀ ≠ updateMat a r₀ c₀ v (r₀ + 1) c₀ then 1 else 0)
        else 0) +
       (if 1 ≤ r₀ then
          (if updateMat a r₀ c₀ v r₀ c₀ ≠ updateMat a r₀ c₀ v (r₀ - 1) c₀ then 1 else 0)
        else 0)) :=
    line_update_exchange h r₀ (fun r => a r c₀)
      (fun r => updateMat a r₀ c₀ v r c₀) hr
      (fun r hrne => updateMat_apply_ne a r₀ c₀ v r c₀ (by tauto))
  omega

/-- Changing the single entry `(r₀, c₀)` moves `_total_edge_diff` by
exactly the change of `calc_local_score` at `(r₀, c₀)`. -/
lemma recolor_total_exchange (h w : ℕ) (a : Mat) (r₀ c₀ v : ℕ)
    (hr : r₀ < h) (hc : c₀ < w) :
    total_edge_diff h w (updateMat a r₀ c₀ v) + calc_local_score h w a r₀ c₀ =
      total_edge_diff h w a + calc_local_score h w (updateMat a r₀ c₀ v) r₀ c₀ := by
  have hH := h_part_exchange h w a r₀ c₀ v hr hc
  have hV := v_part_exchange h w a r₀ c₀ v hr hc
  unfold total_edge_diff calc_local_score
  omega

/-! ### The swap move as two sequential one-entry updates -/

lemma nat_succ_ne_eq_false (n : ℕ) : (n + 1 = n) = False := eq_false (by omega)

lemma nat_ne_succ_eq_false (n : ℕ) : (n = n + 1) = False := eq_false (by omega)

/-- Right-neighbour term at `(r1, c1)` paired with left-neighbour term at
`(r2, c2)` across the two intermediate states of a swap. -/
lemma swap_dir_right (h w : ℕ) (a : Mat) (r1 c1 r2 c2 : ℕ)
    (h1r : r1 < h) (h1c : c1 < w) (h2r : r2 < h) (h2c : c2 < w)
    (hne : ¬(r1 = r2 ∧ c1 = c2)) :
    (if c1 + 1 < w then
        (if updateMat a r1 c1 (a r2 c2) r1 c1 ≠
            updateMat a r1 c1 (a r2 c2) r1 (c1 + 1) then 1 else 0)
      else 0) +
    (if 1 ≤ c2 then (if a r2 c2 ≠ a r2 (c2 - 1) then 1 else 0) else 0) =
    (if c1 + 1 < w then
        (if updateMat (updateMat a r1 c1 (a r2 c2)) r2 c2 (a r1 c1) r1 c1 ≠
            updateMat (updateMat a r1 c1 (a r2 c2)) r2 c2 (a r1 c1) r1 (c1 + 1)
          then 1 else 0)
      else 0) +
    (if 1 ≤ c2 then
        (if updateMat a r1 c1 (a r2 c2) r2 c2 ≠
            updateMat a r1 c1 (a r2 c2) r2 (c2 - 1) then 1 else 0)
      else 0) := by
  by_cases hadj : r2 = r1 ∧ c2 = c1 + 1
  · obtain ⟨h3, h4⟩ := hadj
    subst h3
    subst h4
    simp only [updateMat, Nat.add_sub_cancel, nat_succ_ne_eq_false,
      nat_ne_succ_eq_false, eq_self_iff_true, true_and, and_true, and_self,
      if_true, if_false, and_false, false_and]
    split_ifs <;> omega
  · simp only [updateMat, eq_self_iff_true, true_and, and_true, and_self,
      if_true]
    split_ifs <;> omega

/-- Left-neighbour term at `(r1, c1)` paired with right-neighbour term at
`(r2, c2)`. -/
lemma swap_dir_left (h w : ℕ) (a : Mat) (r1 c1 r2 c2 : ℕ)
    (h1r : r1 < h) (h1c : c1 < w) (h2r : r2 < h) (h2c : c2 < w)
    (hne : ¬(r1 = r2 ∧ c1 = c2)) :
    (if 1 ≤ c1 then
        (if updateMat a r1 c1 (a r2 c2) r1 c1 ≠
            updateMat a r1 c1 (a r2 c2) r1 (c1 - 1) then 1 else 0)
      else 0) +
    (if c2 + 1 < w then (if a r2 c2 ≠ a r2 (c2 + 1) then 1 else 0) else 0) =
    (if 1 ≤ c1 then
        (if updateMat (updateMat a r1 c1 (a r2 c2)) r2 c2 (a r1 c1) r1 c1 ≠
            updateMat (updateMat a r1 c1 (a r2 c2)) r2 c2 (a r1 c1) r1 (c1 - 1)
          then 1 else 0)
      else 0) +
    (if c2 + 1 < w then
        (if updateMat a r1 c1 (a r2 c2) r2 c2 ≠
            updateMat a r1 c1 (a r2 c2) r2 (c2 + 1) then 1 else 0)
      else 0) := by
  by_cases hadj : r2 = r1 ∧ c1 = c2 + 1
  · obtain ⟨h3, h4⟩ := hadj
    subst h3
    subst h4
    simp only [updateMat, Nat.add_sub_cancel, nat_succ_ne_eq_false,
      nat_ne_succ_eq_false, eq_self_iff_true, true_and, and_true, and_self,
      if_true, if_false, and_false, false_and]
    split_ifs <;> omega
  · simp only [updateMat, eq_self_iff_true, true_and, and_true, and_self,
      if_true]
    split_ifs <;> omega

/-- Down-neighbour term at `(r1, c1)` paired with up-neighbour term at
`(r2, c2)`. -/
lemma swap_dir_down (h w : ℕ) (a : Mat) (r1 c1 r2 c2 : ℕ)
    (h1r : r1 < h) (h1c : c1 < w) (h2r : r2 < h) (h2c : c2 < w)
    (hne : ¬(r1 = r2 ∧ c1 = c2)) :
    (if r1 + 1 < h then
        (if updateMat a r1 c1 (a r2 c2) r1 c1 ≠
            updateMat a r1 c1 (a r2 c2) (r1 + 1) c1 then 1 else 0)
      else 0) +
    (if 1 ≤ r2 then (if a r2 c2 ≠ a (r2 - 1) c2 then 1 else 0) else 0) =
    (if r1 + 1 < h then
        (if updateMat (updateMat a r1 c1 (a r2 c2)) r2 c2 (a r1 c1) r1 c1 ≠
            updateMat (updateMat a r1 c1 (a r2 c2)) r2 c2 (a r1 c1) (r1 + 1) c1
          then 1 else 0)
      else 0) +
    (if 1 ≤ r2 then
        (if updateMat a r1 c1 (a r2 c2) r2 c2 ≠
            updateMat a r1 c1 (a r2 c2) (r2 - 1) c2 then 1 else 0)
      else 0) := by
  by_cases hadj : c2 = c1 ∧ r2 = r1 + 1
  · obtain ⟨h3, h4⟩ := hadj
    subst h3
    subst h4
    simp only [updateMat, Nat.add_sub_cancel, nat_succ_ne_eq_false,
      nat_ne_succ_eq_false, eq_self_iff_true, true_and, and_true, and_self,
      if_true, if_false, and_false, false_and]
    split_ifs <;> omega
  · simp only [updateMat, eq_self_iff_true, true_and, and_true, and_self,
      if_true]
    split_ifs <;> omega

/-- Up-neighbour term at `(r1, c1)` paired with down-neighbour term at
`(r2, c2)`. -/
lemma swap_dir_up (h w : ℕ) (a : Mat) (r1 c1 r2 c2 : ℕ)
    (h1r : r1 < h) (h1c : c1 < w) (h2r : r2 < h) (h2c : c2 < w)
    (hne : ¬(r1 = r2 ∧ c1 = c2)) :
    (if 1 ≤ r1 then
        (if updateMat a r1 c1 (a r2 c2) r1 c1 ≠
            updateMat a r1 c1 (a r2 c2) (r1 - 1) c1 then 1 else 0)
      else 0) +
    (if r2 + 1 < h then (if a r2 c2 ≠ a (r2 + 1) c2 then 1 else 0) else 0) =
    (if 1 ≤ r1 then
        (if updateMat (updateMat a r1 c1 (a r2 c2)) r2 c2 (a r1 c1) r1 c1 ≠
            updateMat (updateMat a r1 c1 (a r2 c2)) r2 c2 (a r1 c1) (r1 - 1) c1
          then 1 else 0)
      else 0) +
    (if r2 + 1 < h then
        (if updateMat a r1 c1 (a r2 c2) r2 c2 ≠
            updateMat a r1 c1 (a r2 c2) (r2 + 1) c2 then 1 else 0)
      else 0) := by
  by_cases hadj : c2 = c1 ∧ r1 = r2 + 1
  · obtain ⟨h3, h4⟩ := hadj
    subst h3
    subst h4
    simp only [updateMat, Nat.add_sub_cancel, nat_succ_ne_eq_false,
      nat_ne_succ_eq_false, eq_self_iff_true, true_and, and_true, and_self,
      if_true, if_false, and_false, false_and]
    split_ifs <;> omega
  · simp only [updateMat, eq_self_iff_true, true_and, and_true, and_self,
      if_true]
    split_ifs <;> omega

/-- Cross-state identity for the two intermediate states of a swap: with
`b` the state after writing `a[r2,c2]` into `(r1,c1)` and `d` the state
after additionally writing `a[r1,c1]` into `(r2,c2)`,
`local_b(p1) + local_a(p2) = local_d(p1) + local_b(p2)`. -/
lemma swap_bridge (h w : ℕ) (a : Mat) (r1 c1 r2 c2 : ℕ)
    (h1r : r1 < h) (h1c : c1 < w) (h2r : r2 < h) (h2c : c2 < w) :
    calc_local_score h w (updateMat a r1 c1 (a r2 c2)) r1 c1 +
      calc_local_score h w a r2 c2 =
    calc_local_score h w
        (updateMat (updateMat a r1 c1 (a r2 c2)) r2 c2 (a r1 c1)) r1 c1 +
      calc_local_score h w (updateMat a r1 c1 (a r2 c2)) r2 c2 := by
  by_cases hne : r1 = r2 ∧ c1 = c2
  · obtain ⟨h3, h4⟩ := hne
    subst h3
    subst h4
    simp only [updateMat_self]
  · have hR := swap_dir_right h w a r1 c1 r2 c2 h1r h1c h2r h2c hne
    have hL := swap_dir_left h w a r1 c1 r2 c2 h1r h1c h2r h2c hne
    have hD := swap_dir_down h w a r1 c1 r2 c2 h1r h1c h2r h2c hne
    have hU := swap_dir_up h w a r1 c1 r2 c2 h1r h1c h2r h2c hne
    unfold calc_local_score
    omega

/-- A swap of two in-bounds entries moves `_total_edge_diff` by exactly the
change of the sum of the two local scores, as recomputed by
`try_swap_assignment`. -/
lemma swap_total_exchange (h w : ℕ) (a : Mat) (r1 c1 r2 c2 : ℕ)
    (h1r : r1 < h) (h1c : c1 < w) (h2r : r2 < h) (h2c : c2 < w) :
    total_edge_diff h w (swapCells a r1 c1 r2 c2) +
      (calc_local_score h w a r1 c1 + calc_local_score h w a r2 c2) =
    total_edge_diff h w a +
      (calc_local_score h w (swapCells a r1 c1 r2 c2) r1 c1 +
       calc_local_score h w (swapCells a r1 c1 r2 c2) r2 c2) := by
  rw [swapCells_eq_double_update]
  have e1 := recolor_total_exchange h w a r1 c1 (a r2 c2) h1r h1c
  have e2 := recolor_total_exchange h w (updateMat a r1 c1 (a r2 c2)) r2 c2
    (a r1 c1) h2r h2c
  have e3 := swap_bridge h w a r1 c1 r2 c2 h1r h1c h2r h2c
  omega

/-- Case analysis of `try_swap_assignment`: rejected with the matrix
restored, or accepted with a strict local-score decrease. -/
lemma try_swap_cases (h w : ℕ) (a : Mat) (r1 c1 r2 c2 : ℕ) :
    (calc_local_score h w a r1 c1 + calc_local_score h w a r2 c2 ≤
        calc_local_score h w (swapCells a r1 c1 r2 c2) r1 c1 +
          calc_local_score h w (swapCells a r1 c1 r2 c2) r2 c2 ∧
      try_swap_assignment h w a r1 c1 r2 c2 = (false, a)) ∨
    (calc_local_score h w (swapCells a r1 c1 r2 c2) r1 c1 +
        calc_local_score h w (swapCells a r1 c1 r2 c2) r2 c2 <
          calc_local_score h w a r1 c1 + calc_local_score h w a r2 c2 ∧
      try_swap_assignment h w a r1 c1 r2 c2 =
        (true, swapCells a r1 c1 r2 c2)) := by
  simp only [try_swap_assignment]
  split_ifs with hcn
  · left
    exact ⟨hcn, by rw [swapCells_swapCells]⟩
  · right
    exact ⟨by omega, rfl⟩

/-- Case analysis of `try_change_single_assigment`: accepted with a strict
local-score decrease, or rejected with the matrix restored. -/
lemma try_change_cases (h w : ℕ) (a : Mat) (r c v : ℕ) :
    (calc_local_score h w (updateMat a r c v) r c <
        calc_local_score h w a r c ∧
      try_change_single_assigment h w a r c v = (true, updateMat a r c v)) ∨
    (calc_local_score h w a r c ≤
        calc_local_score h w (updateMat a r c v) r c ∧
      try_change_single_assigment h w a r c v = (false, a)) := by
  simp only [try_change_single_assigment]
  split_ifs with hlt
  · left
    exact ⟨hlt, rfl⟩
  · right
    exact ⟨by omega, by rw [updateMat_revert]⟩

/-- C1: for in-bounds positions, an accepted `try_swap_assignment` or
`try_change_single_assigment` strictly decreases `_total_edge_diff`, and a
rejected one leaves it unchanged. -/
theorem local_moves_edge_diff (h w : ℕ) (a : Mat) (r1 c1 r2 c2 r c v : ℕ)
    (h1r : r1 < h) (h1c : c1 < w) (h2r : r2 < h) (h2c : c2 < w)
    (hr : r < h) (hc : c < w) :
    ((try_swap_assignment h w a r1 c1 r2 c2).1 = true →
      total_edge_diff h w (try_swap_assignment h w a r1 c1 r2 c2).2 <
        total_edge_diff h w a) ∧
    ((try_swap_assignment h w a r1 c1 r2 c2).1 = false →
      total_edge_diff h w (try_swap_assignment h w a r1 c1 r2 c2).2 =
        total_edge_diff h w a) ∧
    ((try_change_single_assigment h w a r c v).1 = true →
      total_edge_diff h w (try_change_single_assigment h w a r c v).2 <
        total_edge_diff h w a) ∧
    ((try_change_single_assigment h w a r c v).1 = false →
      total_edge_diff h w (try_change_single_assigment h w a r c v).2 =
        total_edge_diff h w a) := by
  refine ⟨?_, ?_, ?_, ?_⟩
  · intro hacc
    rcases try_swap_cases h w a r1 c1 r2 c2 with ⟨hle, heq⟩ | ⟨hlt, heq⟩
    · rw [heq] at hacc
      simp at hacc
    · rw [heq]
      have hex := swap_total_exchange h w a r1 c1 r2 c2 h1r h1c h2r h2c
      simp only [Prod.snd]
      omega
  · intro hrej
    rcases try_swap_cases h w a r1 c1 r2 c2 with ⟨hle, heq⟩ | ⟨hlt, heq⟩
    · rw [heq]
    · rw [heq] at hrej
      simp at hrej
  · intro hacc
    rcases try_change_cases h w a r c v with ⟨hlt, heq⟩ | ⟨hle, heq⟩
    · rw [heq]
      have hex := recolor_total_exchange h w a r c v hr hc
      simp only [Prod.snd]
      omega
    · rw [heq] at hacc
      simp at hacc
  · intro hrej
    rcases try_change_cases h w a r c v with ⟨hlt, heq⟩ | ⟨hle, heq⟩
    · rw [heq] at hrej
      simp at hrej
    · rw [heq]

/-- Witness for `local_moves_edge_diff` at a concrete input. -/
theorem local_moves_edge_diff_witness :
    ((0:ℕ) < 2 ∧ (0:ℕ) < 2 ∧ (1:ℕ) < 2 ∧ (1:ℕ) < 2 ∧ (0:ℕ) < 2 ∧ (1:ℕ) < 2) ∧
    (((try_swap_assignment 2 2 (fun i j => i * 2 + j) 0 0 1 1).1 = true →
      total_edge_diff 2 2 (try_swap_assignment 2 2 (fun i j => i * 2 + j) 0 0 1 1).2 <
        total_edge_diff 2 2 (fun i j => i * 2 + j)) ∧
    ((try_swap_assignment 2 2 (fun i j => i * 2 + j) 0 0 1 1).1 = false →
      total_edge_diff 2 2 (try_swap_assignment 2 2 (fun i j => i * 2 + j) 0 0 1 1).2 =
        total_edge_diff 2 2 (fun i j => i * 2 + j)) ∧
    ((try_change_single_assigment 2 2 (fun i j => i * 2 + j) 0 1 0).1 = true →
      total_edge_diff 2 2 (try_change_single_assigment 2 2 (fun i j => i * 2 + j) 0 1 0).2 <
        total_edge_diff 2 2 (fun i j => i * 2 + j)) ∧
    ((try_change_single_assigment 2 2 (fun i j => i * 2 + j) 0 1 0).1 = false →
      total_edge_diff 2 2 (try_change_single_assigment 2 2 (fun i j => i * 2 + j) 0 1 0).2 =
        total_edge_diff 2 2 (fun i j => i * 2 + j))) :=
  ⟨⟨by decide, by decide, by decide, by decide, by decide, by decide⟩,
    local_moves_edge_diff 2 2 (fun i j => i * 2 + j) 0 0 1 1 0 1 0
      (by decide) (by decide) (by decide) (by decide) (by decide) (by decide)⟩

/-! ### Value bounds through the local-search moves -/

/-- A swap of in-bounds entries keeps every in-bounds entry bounded. -/
lemma try_swap_assignment_bound (h w m : ℕ) (a : Mat) (r1 c1 r2 c2 : ℕ)
    (h1r : r1 < h) (h1c : c1 < w) (h2r : r2 < h) (h2c : c2 < w)
    (hb : ∀ i j, i < h → j < w → a i j ≤ m) :
    ∀ i j, i < h → j < w → (try_swap_assignment h w a r1 c1 r2 c2).2 i j ≤ m := by
  intro i j hi hj
  rcases try_swap_cases h w a r1 c1 r2 c2 with ⟨_, heq⟩ | ⟨_, heq⟩
  · rw [heq]
    exact hb i j hi hj
  · rw [heq]
    show swapCells a r1 c1 r2 c2 i j ≤ m
    unfold swapCells
    split_ifs
    · exact hb r2 c2 h2r h2c
    · exact hb r1 c1 h1r h1c
    · exact hb i j hi hj

/-- A recolor value larger than every entry of the matrix differs from all
neighbours, so the local score cannot strictly decrease and
`try_change_single_assigment` always rejects it, restoring the matrix. -/
lemma try_change_out_of_range_rejected (h w m : ℕ) (a : Mat) (r c v : ℕ)
    (hr : r < h) (hc : c < w)
    (hb : ∀ i j, i < h → j < w → a i j ≤ m) (hv : m < v) :
    try_change_single_assigment h w a r c v = (false, a) := by
  have e0 : updateMat a r c v r c = v := updateMat_apply_self a r c v
  have t1 : (if c + 1 < w then (if a r c ≠ a r (c + 1) then 1 else 0) else 0) ≤
      (if c + 1 < w then
        (if updateMat a r c v r c ≠ updateMat a r c v r (c + 1) then 1 else 0)
      else 0) := by
    by_cases hcw : c + 1 < w
    · rw [if_pos hcw, if_pos hcw, e0,
        updateMat_apply_ne a r c v r (c + 1) (by omega)]
      have hne : v ≠ a r (c + 1) := by
        have := hb r (c + 1) hr hcw
        omega
      rw [if_pos hne]
      split <;> omega
    · rw [if_neg hcw, if_neg hcw]
  have t2 : (if 1 ≤ c then (if a r c ≠ a r (c - 1) then 1 else 0) else 0) ≤
      (if 1 ≤ c then
        (if updateMat a r c v r c ≠ updateMat a r c v r (c - 1) then 1 else 0)
      else 0) := by
    by_cases hcz : 1 ≤ c
    · rw [if_pos hcz, if_pos hcz, e0,
        updateMat_apply_ne a r c v r (c - 1) (by omega)]
      have hne : v ≠ a r (c - 1) := by
        have := hb r (c - 1) hr (by omega)
        omega
      rw [if_pos hne]
      split <;> omega
    · rw [if_neg hcz, if_neg hcz]
  have t3 : (if r + 1 < h then (if a r c ≠ a (r + 1) c then 1 else 0) else 0) ≤
      (if r + 1 < h then
        (if updateMat a r c v r c ≠ updateMat a r c v (r + 1) c then 1 else 0)
      else 0) := by
    by_cases hrh : r + 1 < h
    · rw [if_pos hrh, if_pos hrh, e0,
        updateMat_apply_ne a r c v (r + 1) c (by omega)]
      have hne : v ≠ a (r + 1) c := by
        have := hb (r + 1) c hrh hc
        omega
      rw [if_pos hne]
      split <;> omega
    · rw [if_neg hrh, if_neg hrh]
  have t4 : (if 1 ≤ r then (if a r c ≠ a (r - 1) c then 1 else 0) else 0) ≤
      (if 1 ≤ r then
        (if updateMat a r c v r c ≠ updateMat a r c v (r - 1) c then 1 else 0)
      else 0) := by
    by_cases hrz : 1 ≤ r
    · rw [if_pos hrz, if_pos hrz, e0,
        updateMat_apply_ne a r c v (r - 1) c (by omega)]
      have hne : v ≠ a (r - 1) c := by
        have := hb (r - 1) c (by omega) hc
        omega
      rw [if_pos hne]
      split <;> omega
    · rw [if_neg hrz, if_neg hrz]
  have hge : calc_local_score h w a r c ≤
      calc_local_score h w (updateMat a r c v) r c := by
    unfold calc_local_score
    omega
  simp only [try_change_single_assigment]
  rw [if_neg (by omega), updateMat_revert]

/-- A recolor with a value at most `m + 1` keeps every in-bounds entry of a
matrix bounded by `m` bounded by `m`. -/
lemma try_change_bound (h w m : ℕ) (a : Mat) (r c v : ℕ)
    (hr : r < h) (hc : c < w) (hb : ∀ i j, i < h → j < w → a i j ≤ m)
    (hv : v ≤ m + 1) :
    ∀ i j, i < h → j < w → (try_change_single_assigment h w a r c v).2 i j ≤ m := by
  intro i j hi hj
  rcases Nat.lt_or_ge m v with hgt | hle
  · rw [try_change_out_of_range_rejected h w m a r c v hr hc hb hgt]
    exact hb i j hi hj
  · rcases try_change_cases h w a r c v with ⟨_, heq⟩ | ⟨_, heq⟩
    · rw [heq]
      show updateMat a r c v i j ≤ m
      unfold updateMat
      split_ifs
      · exact hle
      · exact hb i j hi hj
    · rw [heq]
      exact hb i j hi hj

/-! ### `np.argmin` properties -/

lemma argmin_fold_mem (f : ℕ → WithTop ℤ) :
    ∀ (l : List ℕ) (b : ℕ),
      l.foldl (fun best k => if f k < f best then k else best) b = b ∨
      l.foldl (fun best k => if f k < f best then k else best) b ∈ l := by
  intro l
  induction l with
  | nil => intro b; exact Or.inl rfl
  | cons x xs ih =>
    intro b
    simp only [List.foldl_cons]
    rcases ih (if f x < f b then x else b) with hh | hh
    · by_cases hfx : f x < f b
      · rw [if_pos hfx] at hh ⊢
        rw [hh]
        exact Or.inr (List.mem_cons_self x xs)
      · rw [if_neg hfx] at hh ⊢
        rw [hh]
        exact Or.inl rfl
    · exact Or.inr (List.mem_cons_of_mem x hh)

lemma argmin_fold_le (f : ℕ → WithTop ℤ) :
    ∀ (l : List ℕ) (b : ℕ),
      f (l.foldl (fun best k => if f k < f best then k else best) b) ≤ f b ∧
      ∀ j ∈ l, f (l.foldl (fun best k => if f k < f best then k else best) b) ≤ f j := by
  intro l
  induction l with
  | nil =>
    intro b
    exact ⟨le_refl _, by simp⟩
  | cons x xs ih =>
    intro b
    simp only [List.foldl_cons]
    obtain ⟨h1, h2⟩ := ih (if f x < f b then x else b)
    have hseedb : f (if f x < f b then x else b) ≤ f b := by
      split_ifs with hfx
      · exact le_of_lt hfx
      · exact le_refl _
    have hseedx : f (if f x < f b then x else b) ≤ f x := by
      split_ifs with hfx
      · exact le_refl _
      · exact le_of_not_lt hfx
    refine ⟨le_trans h1 hseedb, ?_⟩
    intro j hj
    rcases List.mem_cons.mp hj with rfl | hj
    · exact le_trans h1 hseedx
    · exact h2 j hj

lemma argminW_lt (f : ℕ → WithTop ℤ) (m : ℕ) (hm : 0 < m) : argminW f m < m := by
  unfold argminW
  rcases argmin_fold_mem f (List.range m) 0 with hh | hh
  · rw [hh]
    exact hm
  · exact List.mem_range.mp hh

lemma argminW_min (f : ℕ → WithTop ℤ) (m k : ℕ) (hk : k < m) :
    f (argminW f m) ≤ f k := by
  unfold argminW
  exact (argmin_fold_le f (List.range m) 0).2 k (List.mem_range.mpr hk)

lemma capacity_eq_top_of_not (req : ℕ → ℕ) (st : IAState) (value j : ℕ)
    (hj : ¬ eligibleB req st value j = true) :
    capacity_for_choice req st value j = ⊤ := by
  unfold capacity_for_choice
  rw [if_neg hj]

lemma capacity_ne_top_of (req : ℕ → ℕ) (st : IAState) (value j : ℕ)
    (hj : eligibleB req st value j = true) :
    capacity_for_choice req st value j ≠ ⊤ := by
  unfold capacity_for_choice
  rw [if_pos hj]
  exact WithTop.coe_ne_top

/-- `np.argmin` over `capacity_for_choice` picks an eligible player
whenever one exists: every eligible capacity is below the `⊤` sentinel. -/
lemma argminW_eligible (req : ℕ → ℕ) (st : IAState) (value m k : ℕ) (hk : k < m)
    (helig : eligibleB req st value k = true) :
    eligibleB req st value (argminW (capacity_for_choice req st value) m) = true := by
  by_contra hne
  have h1 := capacity_eq_top_of_not req st value _ hne
  have h2 := capacity_ne_top_of req st value k helig
  have h3 := argminW_min (capacity_for_choice req st value) m k hk
  rw [h1] at h3
  exact h2 (top_le_iff.mp h3)

/-- Every entry of the assignment stays at most `m` through the
`initial_assignment` fold. -/
lemma iaFold_assign_le (g : Mat) (req : ℕ → ℕ) (n m : ℕ) :
    ∀ (l : List ℕ) (st : IAState), (∀ i j, st.assign i j ≤ m) →
      ∀ i j, (l.foldl (iaStep g req n m) st).assign i j ≤ m := by
  intro l
  induction l with
  | nil => intro st hst i j; exact hst i j
  | cons fl l ih =>
    intro st hst i j
    simp only [List.foldl_cons]
    apply ih
    intro v1 v2
    simp only [iaStep]
    by_cases hall : (List.range m).all st.satisfied = true
    · rw [if_pos hall]
      exact hst v1 v2
    · rw [if_neg hall]
      by_cases hany : (List.range m).any (eligibleB req st (g (fl / n) (fl % n))) = true
      · rw [if_pos hany]
        have hm : 0 < m := by
          rcases List.any_eq_true.mp hany with ⟨k, hk, _⟩
          exact lt_of_le_of_lt (Nat.zero_le k) (List.mem_range.mp hk)
        have hch := argminW_lt (capacity_for_choice req st (g (fl / n) (fl % n))) m hm
        show updateMat st.assign (fl / n) (fl % n)
            (argminW (capacity_for_choice req st (g (fl / n) (fl % n))) m + 1) v1 v2 ≤ m
        unfold updateMat
        split_ifs
        · omega
        · exact hst v1 v2
      · rw [if_neg hany]
        exact hst v1 v2

/-- Every entry of `initial_assignment` is a player id at most `m`. -/
lemma initial_assignment_le (g : Mat) (req : ℕ → ℕ) (n m : ℕ) :
    ∀ i j, initial_assignment g req n m i j ≤ m := by
  intro i j
  unfold initial_assignment
  exact iaFold_assign_le g req n m (sortedIndices g n) iaInit
    (fun _ _ => Nat.zero_le m) i j

/-- Through any list of in-range draws the local-search loop keeps every
in-bounds entry at most `m`. -/
lemma solveLoop_bound (h w m : ℕ) (ds : List Draw) :
    ∀ (a : Mat), (∀ d ∈ ds, validDraw h w m d) →
      (∀ i j, i < h → j < w → a i j ≤ m) →
      ∀ i j, i < h → j < w → solveLoop h w a ds i j ≤ m := by
  induction ds with
  | nil => intro a _ hb i j hi hj; exact hb i j hi hj
  | cons d ds ih =>
    intro a hv hb i j hi hj
    have hvd := hv d (by simp)
    obtain ⟨h1, h2, h3, h4, h5, h6, h7, h8, h9, h10⟩ := hvd
    have hb1 : ∀ i j, i < h → j < w →
        (try_swap_assignment h w a d.p1.1 d.p1.2 d.p2.1 d.p2.2).2 i j ≤ m :=
      try_swap_assignment_bound h w m a _ _ _ _ h1 h3 h4 h6 hb
    have hb2 : ∀ i j, i < h → j < w → solveStep h w a d i j ≤ m := by
      intro v1 v2 hv1 hv2
      exact try_change_bound h w m _ d.p3.1 d.p3.2 d.val h7 h9 hb1
        (by omega) v1 v2 hv1 hv2
    exact ih (solveStep h w a d) (fun d' hd' => hv d' (by simp [hd'])) hb2 i j hi hj

/-- C4 counterexample: the recolor value array is
`np.random.randint(0, (m + 1) + 1, ...)`, so with `m = 1` player the value
`2 = m + 1` is a possible draw, outside `{0, ..., m}`. -/
theorem recolor_target_range_cex :
    validDraw 2 2 1 drawTwo ∧ ¬ drawTwo.val ≤ 1 := by
  constructor
  · simp only [validDraw]
    decide
  · decide

/-- C4 amended: the recolor values drawn in `solve_assignment` lie in
`{0, ..., m + 1}` (not `{0, ..., m}`); nevertheless every cell of the
assignment holds a player id in `{0, ..., m}` after any in-range draw
list, because a recolor to the fresh value `m + 1` is always rejected. -/
theorem solve_assignment_ids_in_range (g : Mat) (req : ℕ → ℕ) (n m : ℕ)
    (ds : List Draw) (hv : ∀ d ∈ ds, validDraw n n m d) :
    (∀ d ∈ ds, d.val ≤ m + 1) ∧
    (∀ i j, i < n → j < n → solve_assignment g req n m ds i j ≤ m) := by
  constructor
  · intro d hd
    have := hv d hd
    unfold validDraw at this
    omega
  · intro i j hi hj
    unfold solve_assignment
    exact solveLoop_bound n n m ds (initial_assignment g req n m) hv
      (fun v1 v2 _ _ => initial_assignment_le g req n m v1 v2) i j hi hj

/-- Witness for `solve_assignment_ids_in_range` at a concrete input. -/
theorem solve_assignment_ids_in_range_witness :
    (∀ d ∈ [drawTwo], validDraw 2 2 1 d) ∧
    ((∀ d ∈ [drawTwo], d.val ≤ 1 + 1) ∧
     (∀ i j, i < 2 → j < 2 → solve_assignment g7 req7 2 1 [drawTwo] i j ≤ 1)) :=
  ⟨by intro d hd; simp only [List.mem_singleton] at hd; subst hd
      simp only [validDraw]; decide,
    solve_assignment_ids_in_range g7 req7 2 1 [drawTwo]
      (by intro d hd; simp only [List.mem_singleton] at hd; subst hd
          simp only [validDraw]; decide)⟩

/-- C5 counterexample: column indices are drawn from
`np.random.randint(1, w)`, so no draw of the local search ever proposes a
column-0 position: with `n = 2` no valid draw proposes `(0, 0)`. -/
theorem column_zero_never_proposed :
    ¬ ∃ d : Draw, validDraw 2 2 1 d ∧ proposes d 0 0 := by
  rintro ⟨d, hv, hp⟩
  obtain ⟨h1, h2, h3, h4, h5, h6, h7, h8, h9, h10⟩ := hv
  rcases hp with hp | hp | hp
  · have hz : d.p1.2 = 0 := by rw [hp]
    omega
  · have hz : d.p2.2 = 0 := by rw [hp]
    omega
  · have hz : d.p3.2 = 0 := by rw [hp]
    omega

/-- C5 amended: candidate rows range over `[0, h)` and candidate columns
over `[1, w)`: every in-bounds position with column at least 1 is proposed
by some valid draw. -/
theorem positions_with_positive_column_proposable (h w m r c : ℕ)
    (hr : r < h) (hc1 : 1 ≤ c) (hcw : c < w) :
    ∃ d : Draw, validDraw h w m d ∧ proposes d r c := by
  refine ⟨⟨(r, c), (r, c), (r, c), 0⟩, ?_, Or.inl rfl⟩
  unfold validDraw
  refine ⟨hr, hc1, hcw, hr, hc1, hcw, hr, hc1, hcw, ?_⟩
  show 0 < m + 2
  omega

/-- Witness for `positions_with_positive_column_proposable` at a concrete
input. -/
theorem positions_with_positive_column_proposable_witness :
    ((0:ℕ) < 2 ∧ (1:ℕ) ≤ 1 ∧ (1:ℕ) < 2) ∧
    ∃ d : Draw, validDraw 2 2 1 d ∧ proposes d 0 1 :=
  ⟨⟨by decide, by decide, by decide⟩,
    positions_with_positive_column_proposable 2 2 1 0 1
      (by decide) (by decide) (by decide)⟩

/-! ### C3: `initial_assignment` respects the per-player upper bound -/

lemma insertAsc_perm (key : ℕ → ℕ) (x : ℕ) :
    ∀ (l : List ℕ), (insertAsc key x l).Perm (x :: l) := by
  intro l
  induction l with
  | nil => exact List.Perm.refl _
  | cons y ys ih =>
    unfold insertAsc
    split_ifs with hle
    · exact List.Perm.refl _
    · exact (ih.cons y).trans (List.Perm.swap x y ys)

lemma sortAsc_perm (key : ℕ → ℕ) : ∀ (l : List ℕ), (sortAsc key l).Perm l := by
  intro l
  induction l with
  | nil => exact List.Perm.refl _
  | cons x xs ih =>
    unfold sortAsc
    exact (insertAsc_perm key x (sortAsc key xs)).trans (ih.cons x)

lemma sortedIndices_perm (g : Mat) (n : ℕ) :
    (sortedIndices g n).Perm (List.range (n * n)) := by
  unfold sortedIndices
  exact (List.reverse_perm _).trans (sortAsc_perm _ _)

lemma sortedIndices_nodup (g : Mat) (n : ℕ) : (sortedIndices g n).Nodup :=
  (sortedIndices_perm g n).nodup_iff.mpr (List.nodup_range _)

lemma sortedIndices_lt (g : Mat) (n : ℕ) : ∀ f ∈ sortedIndices g n, f < n * n :=
  fun f hf => List.mem_range.mp ((sortedIndices_perm g n).mem_iff.mp hf)

/-- Exchange identity for a single-entry change of a summand over the
square `range n × range n`. -/
lemma sum2_update (n : ℕ) (F G : ℕ → ℕ → ℕ) (r c : ℕ) (hr : r < n) (hc : c < n)
    (hother : ∀ i j, ¬(i = r ∧ j = c) → F i j = G i j) :
    (∑ i ∈ Finset.range n, ∑ j ∈ Finset.range n, F i j) + G r c =
    (∑ i ∈ Finset.range n, ∑ j ∈ Finset.range n, G i j) + F r c := by
  have hsubr : ({r} : Finset ℕ) ⊆ Finset.range n := by
    intro x hx
    simp only [Finset.mem_singleton] at hx
    rw [Finset.mem_range]
    omega
  have hfgr : ∀ i ∈ Finset.range n, i ∉ ({r} : Finset ℕ) →
      (∑ j ∈ Finset.range n, F i j) = ∑ j ∈ Finset.range n, G i j := by
    intro i _ hir
    simp only [Finset.mem_singleton] at hir
    exact Finset.sum_congr rfl fun j _ => hother i j (by tauto)
  have houter : (∑ i ∈ Finset.range n, ∑ j ∈ Finset.range n, F i j) +
      (∑ j ∈ Finset.range n, G r j) =
      (∑ i ∈ Finset.range n, ∑ j ∈ Finset.range n, G i j) +
      (∑ j ∈ Finset.range n, F r j) := by
    have hx := sum_exchange (Finset.range n) ({r} : Finset ℕ) _ _ hsubr hfgr
    rw [Finset.sum_singleton, Finset.sum_singleton] at hx
    exact hx
  have hsubc : ({c} : Finset ℕ) ⊆ Finset.range n := by
    intro x hx
    simp only [Finset.mem_singleton] at hx
    rw [Finset.mem_range]
    omega
  have hfgc : ∀ j ∈ Finset.range n, j ∉ ({c} : Finset ℕ) → F r j = G r j := by
    intro j _ hjc
    simp only [Finset.mem_singleton] at hjc
    exact hother r j (by tauto)
  have hinner : (∑ j ∈ Finset.range n, F r j) + G r c =
      (∑ j ∈ Finset.range n, G r j) + F r c := by
    have hx := sum_exchange (Finset.range n) ({c} : Finset ℕ) _ _ hsubc hfgc
    rw [Finset.sum_singleton, Finset.sum_singleton] at hx
    exact hx
  omega

/-- Writing player id `j + 1` into a previously unassigned cell adds the
cell's weight to player `j` and leaves every other player's weight
unchanged. -/
lemma playerWeight_update_fresh (g : Mat) (n : ℕ) (a : Mat) (r c j k : ℕ)
    (hr : r < n) (hc : c < n) (h0 : a r c = 0) :
    playerWeight g n (updateMat a r c (j + 1)) k =
      playerWeight g n a k + (if k = j then g r c else 0) := by
  have hother : ∀ i i2, ¬(i = r ∧ i2 = c) →
      (if updateMat a r c (j + 1) i i2 = k + 1 then g i i2 else 0) =
      (if a i i2 = k + 1 then g i i2 else 0) := by
    intro i i2 hij
    rw [updateMat_apply_ne a r c (j + 1) i i2 hij]
  have hx : (∑ i ∈ Finset.range n, ∑ i2 ∈ Finset.range n,
        (if updateMat a r c (j + 1) i i2 = k + 1 then g i i2 else 0)) +
      (if a r c = k + 1 then g r c else 0) =
      (∑ i ∈ Finset.range n, ∑ i2 ∈ Finset.range n,
        (if a i i2 = k + 1 then g i i2 else 0)) +
      (if updateMat a r c (j + 1) r c = k + 1 then g r c else 0) :=
    sum2_update n _ _ r c hr hc hother
  rw [updateMat_apply_self] at hx
  have h1 : (if a r c = k + 1 then g r c else 0) = 0 := by
    rw [h0, if_neg (by omega)]
  have h2 : (if j + 1 = k + 1 then g r c else 0) = (if k = j then g r c else 0) := by
    by_cases hkj : k = j
    · rw [if_pos (by omega), if_pos hkj]
    · rw [if_neg (by omega), if_neg hkj]
  rw [h1, h2] at hx
  unfold playerWeight
  omega

lemma playerWeight_iaInit (g : Mat) (n k : ℕ) :
    playerWeight g n iaInit.assign k = 0 := by
  unfold playerWeight
  refine Finset.sum_eq_zero fun r _ => Finset.sum_eq_zero fun c _ => ?_
  show (if (0 : ℕ) = k + 1 then g r c else 0) = 0
  rw [if_neg (by omega)]

/-- Fold invariant of `initial_assignment`: the `scores` array tracks
`playerWeight` of the assignment being built, and never exceeds the upper
bound `floor(requirements[k] * 1.2)`. -/
lemma iaFold_inv (g : Mat) (req : ℕ → ℕ) (n m : ℕ) :
    ∀ (l : List ℕ) (st : IAState),
      l.Nodup → (∀ f ∈ l, f < n * n) →
      (∀ k, k < m → st.scores k = playerWeight g n st.assign k) →
      (∀ k, k < m → st.scores k ≤ iaUB req k) →
      (∀ f ∈ l, st.assign (f / n) (f % n) = 0) →
      (∀ k, k < m →
        (l.foldl (iaStep g req n m) st).scores k =
          playerWeight g n (l.foldl (iaStep g req n m) st).assign k) ∧
      (∀ k, k < m → (l.foldl (iaStep g req n m) st).scores k ≤ iaUB req k) := by
  intro l
  induction l with
  | nil =>
    intro st _ _ hsc hub _
    exact ⟨hsc, hub⟩
  | cons fl l ih =>
    intro st hnd hlt hsc hub hzero
    simp only [List.foldl_cons]
    by_cases hall : (List.range m).all st.satisfied = true
    · have hstep : iaStep g req n m st fl = st := by
        simp only [iaStep]
        rw [if_pos hall]
      rw [hstep]
      exact ih st hnd.of_cons (fun f hf => hlt f (List.mem_cons_of_mem fl hf))
        hsc hub (fun f hf => hzero f (List.mem_cons_of_mem fl hf))
    · by_cases hany : (List.range m).any (eligibleB req st (g (fl / n) (fl % n))) = true
      · have hm : 0 < m := by
          rcases List.any_eq_true.mp hany with ⟨k, hk, _⟩
          exact lt_of_le_of_lt (Nat.zero_le k) (List.mem_range.mp hk)
        obtain ⟨k0, hk0mem, hk0elig⟩ := List.any_eq_true.mp hany
        have hk0 : k0 < m := List.mem_range.mp hk0mem
        obtain ⟨ch, hch_lt, hch_elig, hch_eq⟩ :
            ∃ ch, ch < m ∧ eligibleB req st (g (fl / n) (fl % n)) ch = true ∧
              argminW (capacity_for_choice req st (g (fl / n) (fl % n))) m = ch :=
          ⟨_, argminW_lt _ m hm,
            argminW_eligible req st (g (fl / n) (fl % n)) m k0 hk0 hk0elig, rfl⟩
        have hcap : ((g (fl / n) (fl % n) : ℤ)) ≤
            (iaUB req ch : ℤ) - (st.scores ch : ℤ) := by
          unfold eligibleB at hch_elig
          rw [Bool.and_eq_true, Bool.and_eq_true] at hch_elig
          exact of_decide_eq_true hch_elig.2
        have hfl := hlt fl (List.mem_cons_self fl l)
        have hn : 0 < n := by
          rcases Nat.eq_zero_or_pos n with rfl | hpos
          · simp at hfl
          · exact hpos
        have hrow : fl / n < n := Nat.div_lt_of_lt_mul hfl
        have hcol : fl % n < n := Nat.mod_lt _ hn
        have hzero0 := hzero fl (List.mem_cons_self fl l)
        have hstep : iaStep g req n m st fl =
            { assign := updateMat st.assign (fl / n) (fl % n) (ch + 1)
              scores := fun k => if k = ch then
                  st.scores ch + g (fl / n) (fl % n)
                else st.scores k
              satisfied := fun k => if k = ch then
                  (if req ch ≤ st.scores ch + g (fl / n) (fl % n) then true
                   else st.satisfied ch)
                else st.satisfied k } := by
          simp only [iaStep]
          rw [if_neg hall, if_pos hany, hch_eq]
        rw [hstep]
        apply ih
        · exact hnd.of_cons
        · exact fun f hf => hlt f (List.mem_cons_of_mem fl hf)
        · intro k hk
          show (if k = ch then st.scores ch + g (fl / n) (fl % n) else st.scores k) =
            playerWeight g n (updateMat st.assign (fl / n) (fl % n) (ch + 1)) k
          rw [playerWeight_update_fresh g n st.assign (fl / n) (fl % n) ch k
            hrow hcol hzero0, ← hsc k hk]
          by_cases hkc : k = ch
          · rw [if_pos hkc, if_pos hkc, hkc]
          · rw [if_neg hkc, if_neg hkc]
            omega
        · intro k hk
          show (if k = ch then st.scores ch + g (fl / n) (fl % n) else st.scores k) ≤
            iaUB req k
          by_cases hkc : k = ch
          · rw [if_pos hkc, hkc]
            omega
          · rw [if_neg hkc]
            exact hub k hk
        · intro f hf
          show updateMat st.assign (fl / n) (fl % n) (ch + 1) (f / n) (f % n) = 0
          have hne : ¬(f / n = fl / n ∧ f % n = fl % n) := by
            rintro ⟨hdiv, hmod⟩
            have hmem : fl ∉ l := (List.nodup_cons.mp hnd).1
            have hfeq : f = fl := by
              have h1 : n * (f / n) + f % n = f := Nat.div_add_mod f n
              have h2 : n * (fl / n) + fl % n = fl := Nat.div_add_mod fl n
              rw [hdiv, hmod] at h1
              omega
            rw [hfeq] at hf
            exact hmem hf
          rw [updateMat_apply_ne _ _ _ _ _ _ hne]
          exact hzero f (List.mem_cons_of_mem fl hf)
      · have hstep : iaStep g req n m st fl = st := by
          simp only [iaStep]
          rw [if_neg hall, if_neg hany]
        rw [hstep]
        exact ih st hnd.of_cons (fun f hf => hlt f (List.mem_cons_of_mem fl hf))
          hsc hub (fun f hf => hzero f (List.mem_cons_of_mem fl hf))

/-- C3: in `initial_assignment`, every player's accumulated weight is at
most `floor(requirements[k] * 1.2)`. -/
theorem initial_assignment_upper_bound (g : Mat) (req : ℕ → ℕ) (n m k : ℕ)
    (hk : k < m) :
    playerWeight g n (initial_assignment g req n m) k ≤ 6 * req k / 5 := by
  have hinv := iaFold_inv g req n m (sortedIndices g n) iaInit
    (sortedIndices_nodup g n) (sortedIndices_lt g n)
    (fun k' _ => (playerWeight_iaInit g n k').symm)
    (fun k' _ => Nat.zero_le _)
    (fun f _ => rfl)
  obtain ⟨hs, hu⟩ := hinv
  unfold initial_assignment
  rw [← hs k hk]
  exact hu k hk

/-- Witness for `initial_assignment_upper_bound` at a concrete input. -/
theorem initial_assignment_upper_bound_witness :
    (0 < 3 ∧ playerWeight g8 3 (initial_assignment g8 req8 3 3) 0 ≤ 6 * req8 0 / 5) :=
  ⟨by decide, initial_assignment_upper_bound g8 req8 3 3 0 (by decide)⟩

/-! ### C7, C8: concrete scenarios for `initial_assignment` -/

/-- C7 counterexample: on the 1×1 grid of weight 5 with requirement `[1]`,
the upper bound is `floor(1 * 1.2) = 1 < 5`, so the sole cell is *not*
assigned to player 1. -/
theorem scenario_1x1_cell_not_player1 :
    initial_assignment g7 req7 1 1 0 0 ≠ 1 := by decide

/-- C7 amended: on the 1×1 grid of weight 5 with requirement `[1]`,
`initial_assignment` leaves the sole cell unassigned (value 0, because the
weight 5 exceeds the upper bound `floor(1 * 1.2) = 1`), and
`_total_edge_diff` of the result is 0. -/
theorem scenario_1x1_unassigned :
    initial_assignment g7 req7 1 1 0 0 = 0 ∧
    total_edge_diff 1 1 (initial_assignment g7 req7 1 1) = 0 := by
  constructor
  · decide
  · decide

/-- C8: on the 3×3 grid of all weight 1 with requirements `[3, 3, 3]`,
`initial_assignment` assigns every cell and gives every player accumulated
weight exactly its requirement 3. -/
theorem scenario_3x3_all_assigned_exact :
    (∀ r, r < 3 → ∀ c, c < 3 → initial_assignment g8 req8 3 3 r c ≠ 0) ∧
    (∀ k, k < 3 → playerWeight g8 3 (initial_assignment g8 req8 3 3) k = req8 k) := by
  decide

/-! ### C9: determinism of `initial_assignment` -/

/-- C9: `initial_assignment` is a pure function of its inputs (it draws no
randomness): two runs on equal `(grid, requirements)` inputs return equal
assignment matrices. -/
theorem initial_assignment_deterministic (g1 g2 : Mat) (req1 req2 : ℕ → ℕ)
    (n m : ℕ) (hg : g1 = g2) (hreq : req1 = req2) :
    initial_assignment g1 req1 n m = initial_assignment g2 req2 n m := by
  rw [hg, hreq]

/-- Witness for `initial_assignment_deterministic` at a concrete input. -/
theorem initial_assignment_deterministic_witness :
    (g8 = g8 ∧ req8 = req8) ∧
    initial_assignment g8 req8 3 3 = initial_assignment g8 req8 3 3 :=
  ⟨⟨rfl, rfl⟩, initial_assignment_deterministic g8 g8 req8 req8 3 3 rfl rfl⟩

/-! ### C6: the edge-difference formulation's auxiliary variables -/

/-- Characterization of the `pairs` list of `edge_diff.solve_assignment`:
exactly the vertical pairs `((i,j),(i+1,j))` and horizontal pairs
`((i,j),(i,j+1))` with both loop indices below `n - 1`. -/
theorem edPairs_mem_iff (n : ℕ) (p : (ℕ × ℕ) × (ℕ × ℕ)) :
    p ∈ edPairs n ↔ ∃ i j, i < n - 1 ∧ j < n - 1 ∧
      (p = ((i, j), (i + 1, j)) ∨ p = ((i, j), (i, j + 1))) := by
  unfold edPairs
  rw [List.mem_flatMap]
  constructor
  · rintro ⟨i, hi, hmem⟩
    rw [List.mem_flatMap] at hmem
    obtain ⟨j, hj, hp⟩ := hmem
    refine ⟨i, j, List.mem_range.mp hi, List.mem_range.mp hj, ?_⟩
    simp only [List.mem_cons, List.not_mem_nil, or_false] at hp
    exact hp
  · rintro ⟨i, j, hi, hj, hp⟩
    refine ⟨i, List.mem_range.mpr hi, ?_⟩
    rw [List.mem_flatMap]
    refine ⟨j, List.mem_range.mpr hj, ?_⟩
    simp only [List.mem_cons, List.not_mem_nil, or_false]
    exact hp

lemma zDecl_mem (n m p k : ℕ) (hp : p < (edPairs n).length) (hk : k < m) :
    (⟨p, k, (pairAt n p).1, (pairAt n p).2, 0, 1⟩ : ZDecl) ∈ zDecls n m := by
  unfold zDecls
  rw [List.mem_flatMap]
  exact ⟨p, List.mem_range.mpr hp,
    List.mem_map.mpr ⟨k, List.mem_range.mpr hk, rfl⟩⟩

lemma zConstraint1_mem (n m p k : ℕ) (hp : p < (edPairs n).length) (hk : k < m) :
    (⟨MipVar.z p k,
      MipVar.x (pairAt n p).1.1 (pairAt n p).1.2 k,
      MipVar.x (pairAt n p).2.1 (pairAt n p).2.2 k⟩ : GeDiffConstr) ∈
      zConstraints n m := by
  unfold zConstraints
  rw [List.mem_flatMap]
  refine ⟨p, List.mem_range.mpr hp, ?_⟩
  rw [List.mem_flatMap]
  refine ⟨k, List.mem_range.mpr hk, ?_⟩
  exact List.mem_cons_self _ _

lemma zConstraint2_mem (n m p k : ℕ) (hp : p < (edPairs n).length) (hk : k < m) :
    (⟨MipVar.z p k,
      MipVar.x (pairAt n p).2.1 (pairAt n p).2.2 k,
      MipVar.x (pairAt n p).1.1 (pairAt n p).1.2 k⟩ : GeDiffConstr) ∈
      zConstraints n m := by
  unfold zConstraints
  rw [List.mem_flatMap]
  refine ⟨p, List.mem_range.mpr hp, ?_⟩
  rw [List.mem_flatMap]
  refine ⟨k, List.mem_range.mpr hk, ?_⟩
  exact List.mem_cons_of_mem _ (List.mem_cons_self _ _)

/-- C6 counterexample: for `n = 2` the cell pair `((1,0),(1,1))` is
horizontally grid-adjacent (in the last row), yet with `m = 1` player no
auxiliary variable of the edge-difference model carries it, in either
orientation. -/
theorem edge_diff_aux_var_missing :
    (1 < 2 ∧ 0 + 1 < 2) ∧
    ∀ d ∈ zDecls 2 1,
      ¬((d.cell1 = (1, 0) ∧ d.cell2 = (1, 1)) ∨
        (d.cell1 = (1, 1) ∧ d.cell2 = (1, 0))) := by
  decide

/-- C6 amended: for every pair index `p` of the enumerated list — which
consists exactly of the pairs `((i,j),(i+1,j))` and `((i,j),(i,j+1))` with
`i, j < n - 1`, omitting last-row horizontal and last-column vertical
adjacent pairs — and every player `k`, the model declares one continuous
auxiliary variable `z_{p}_{k}` with bounds `[0, 1]` and adds the two
constraints `z ≥ x1 - x2` and `z ≥ x2 - x1`; there are no other
auxiliary-variable declarations; under any valuation satisfying the added
constraints, `z_{p}_{k}` is lower-bounded by the absolute difference of
the pair's two player-`k` variables; and the objective sums exactly the
declared auxiliary variables. -/
theorem edge_diff_formulation_structure (n m : ℕ) :
    (∀ pr, pr ∈ edPairs n ↔ ∃ i j, i < n - 1 ∧ j < n - 1 ∧
      (pr = ((i, j), (i + 1, j)) ∨ pr = ((i, j), (i, j + 1)))) ∧
    (∀ p k, p < (edPairs n).length → k < m →
      (⟨p, k, (pairAt n p).1, (pairAt n p).2, 0, 1⟩ : ZDecl) ∈ zDecls n m ∧
      (⟨MipVar.z p k,
        MipVar.x (pairAt n p).1.1 (pairAt n p).1.2 k,
        MipVar.x (pairAt n p).2.1 (pairAt n p).2.2 k⟩ : GeDiffConstr) ∈
        zConstraints n m ∧
      (⟨MipVar.z p k,
        MipVar.x (pairAt n p).2.1 (pairAt n p).2.2 k,
        MipVar.x (pairAt n p).1.1 (pairAt n p).1.2 k⟩ : GeDiffConstr) ∈
        zConstraints n m) ∧
    (∀ d ∈ zDecls n m, d.lb = 0 ∧ d.ub = 1 ∧ d.player < m ∧
      d.pairIdx < (edPairs n).length ∧ (d.cell1, d.cell2) = pairAt n d.pairIdx) ∧
    (∀ v : MipVar → ℚ,
      (∀ ct ∈ zConstraints n m, v ct.pos - v ct.neg ≤ v ct.lhs) →
      ∀ p k, p < (edPairs n).length → k < m →
        |v (MipVar.x (pairAt n p).1.1 (pairAt n p).1.2 k) -
          v (MipVar.x (pairAt n p).2.1 (pairAt n p).2.2 k)| ≤
          v (MipVar.z p k)) ∧
    zObjectiveVars n m = (zDecls n m).map (fun d => MipVar.z d.pairIdx d.player) := by
  refine ⟨edPairs_mem_iff n, ?_, ?_, ?_, ?_⟩
  · intro p k hp hk
    exact ⟨zDecl_mem n m p k hp hk, zConstraint1_mem n m p k hp hk,
      zConstraint2_mem n m p k hp hk⟩
  · intro d hd
    unfold zDecls at hd
    rw [List.mem_flatMap] at hd
    obtain ⟨p, hp, hd⟩ := hd
    rw [List.mem_map] at hd
    obtain ⟨k, hk, rfl⟩ := hd
    exact ⟨rfl, rfl, List.mem_range.mp hk, List.mem_range.mp hp, rfl⟩
  · intro v hv p k hp hk
    have h1 := hv _ (zConstraint1_mem n m p k hp hk)
    have h2 := hv _ (zConstraint2_mem n m p k hp hk)
    dsimp only at h1 h2
    exact abs_sub_le_iff.mpr ⟨h1, h2⟩
  · unfold zObjectiveVars zDecls
    rw [List.map_flatMap]
    refine congrArg _ (funext fun p => ?_)
    rw [List.map_map]
    rfl
